import Mathlib

/-!
Shallow embedding of `src/TransferTracker.py` (a Streamlit stock-transfer
data-entry app) and proofs about its row-list editing, validation and
persistence logic.

Modelling conventions:
* Python strings are Lean `String`s; the label-splitting logic additionally
  works on `List Char` (via `String.toList`) so it can be reasoned about
  structurally.
* The quantity widget (`st.number_input` with `min_value=0`) produces a
  non-negative integer, embedded as `Nat`.
* The reference spreadsheet column is a list of cells, `none` for a null
  cell (which pandas `dropna` removes).
* The transfer log spreadsheet is `Option (List Record)`: `none` when the
  file does not exist yet, `some log` for its row contents.
* The wall clock (`datetime.now(local_timezone)`) is abstracted as two
  opaque formatted strings `date` and `time` passed into `save_transfers`.
-/

namespace TransferTracker

/-- A draft transfer row: the dict literal built in `add_row`
(`item_selected`, `quantity`, `from_location`, `to_location`). -/
structure DraftRow where
  item_selected : String
  quantity : Nat
  from_location : String
  to_location : String
deriving Repr, DecidableEq

instance : Inhabited DraftRow := ⟨⟨"", 0, "", ""⟩⟩

/-- A persisted transfer record: the dict appended to `records` in
`save_transfers` (Date, Time, Item No, Item Description, Quantity,
From Location, To Location). -/
structure Record where
  date : String
  time : String
  item_no : String
  item_description : String
  quantity : Nat
  from_location : String
  to_location : String
deriving Repr, DecidableEq

/-- `load_locations` (lines 25-34): given the cells of the
`Bin Location Description` column, drop nulls (`dropna`), keep distinct
values (`unique`), and sort ascending (`sorted`).  pandas `unique` keeps
first occurrences while `List.dedup` keeps last ones; since the result is
sorted immediately afterwards the two produce the same list. -/
def load_locations (cells : List (Option String)) : List String :=
  List.mergeSort ((cells.filterMap id).dedup) (fun a b => decide (a ≤ b))

/-- Python truthiness used in `add_row`:
`prev if prev else locations_list[0]` falls back to the default when the
argument is `None` or the empty string.  `locations_list[0]` is modelled by
`headI` (the app would raise `IndexError` on an empty location list). -/
def pyOr (prev : Option String) (dflt : String) : String :=
  match prev with
  | some s => if s = "" then dflt else s
  | none => dflt

/-- `add_row` (lines 47-54): append a blank row whose locations default to
the previous row's (when passed and non-empty) or to `locations_list[0]`. -/
def add_row (locs : List String) (rows : List DraftRow)
    (prev_from prev_to : Option String) : List DraftRow :=
  rows ++ [{ item_selected := ""
           , quantity := 0
           , from_location := pyOr prev_from locs.headI
           , to_location := pyOr prev_to locs.headI }]

/-- `delete_row` (lines 56-58): `pop(idx)` guarded by
`0 <= idx < len(rows)`; out of range is a silent no-op.  The index is an
`Int` because Python ints can be negative. -/
def delete_row (rows : List DraftRow) (idx : Int) : List DraftRow :=
  if 0 ≤ idx ∧ idx < (rows.length : Int) then rows.eraseIdx idx.toNat else rows

/-- The deletion loop (lines 167-169):
`for idx in sorted(rows_to_delete, reverse=True): delete_row(idx)`. -/
def handle_deletions (rows : List DraftRow) (rows_to_delete : List Nat) :
    List DraftRow :=
  (List.mergeSort rows_to_delete (fun a b => decide (b ≤ a))).foldl
    (fun rs i => delete_row rs (Int.ofNat i)) rows

/-- `last_row_has_item_selected` (lines 102-106). -/
def last_row_has_item_selected (rows : List DraftRow) : Bool :=
  match rows.getLast? with
  | none => false
  | some last => decide (last.item_selected ≠ "")

/-- The auto-add check (lines 173-176): when the last row has an item
selected, append a blank row carrying its `from_location`/`to_location`. -/
def auto_add (locs : List String) (rows : List DraftRow) : List DraftRow :=
  if last_row_has_item_selected rows then
    add_row locs rows (some rows.getLast!.from_location)
      (some rows.getLast!.to_location)
  else rows

/-- Session-state initialisation (lines 115-120): an empty draft list gets
one blank row before the form renders. -/
def session_init (locs : List String) (rows : List DraftRow) : List DraftRow :=
  if rows.length = 0 then add_row locs rows none none else rows

/-- The separator used in combined part labels. -/
def sep : List Char := " - ".toList

/-- First-occurrence split, the `List Char` model of
`selected_text.split(" - ", 1)` under the guard `" - " in selected_text`:
`some (a, b)` when the string is `a ++ sep ++ b` with `a` shortest,
`none` when the separator does not occur. -/
def splitFirst (sp : List Char) : List Char → Option (List Char × List Char)
  | [] => none
  | c :: cs =>
    if sp.isPrefixOf (c :: cs) then some ([], (c :: cs).drop sp.length)
    else
      match splitFirst sp cs with
      | some (a, b) => some (c :: a, b)
      | none => none

/-- Lines 73-76: split a combined label into item code and item name on the
first `" - "`; when the separator is absent the whole label is the code and
the name is empty. -/
def split_item (selected_text : String) : String × String :=
  match splitFirst sep selected_text.toList with
  | some (code, name) => (String.mk code, String.mk name)
  | none => (selected_text, "")

/-- The record built for one valid row in `save_transfers` (lines 78-86). -/
def make_record (date time : String) (row : DraftRow) : Record :=
  { date := date
  , time := time
  , item_no := (split_item row.item_selected).1
  , item_description := (split_item row.item_selected).2
  , quantity := row.quantity
  , from_location := row.from_location
  , to_location := row.to_location }

/-- The `records` accumulation loop of `save_transfers` (lines 66-86):
`if selected_text and quantity > 0: records.append(...)`. -/
def build_records (date time : String) (rows : List DraftRow) : List Record :=
  rows.foldl
    (fun records row =>
      if row.item_selected ≠ "" ∧ 0 < row.quantity then
        records ++ [make_record date time row]
      else records)
    []

/-- Outcome of `save_transfers`: nothing written (with or without the
`st.warning` about no valid transfers), or the full new log contents. -/
inductive SaveOutcome where
  | nothing_saved (warned : Bool)
  | saved (log : List Record)
deriving Repr, DecidableEq

/-- `save_transfers` (lines 60-100): early return on an empty argument,
warn and write nothing when no row passes the validity filter, otherwise
concatenate the new records after the existing log (or create the log). -/
def save_transfers (date time : String) (existing : Option (List Record))
    (rows : List DraftRow) : SaveOutcome :=
  if rows = [] then .nothing_saved false
  else
    let records := build_records date time rows
    if records = [] then .nothing_saved true
    else .saved (existing.getD [] ++ records)

/-- Contents of the transfers file after `save_transfers` runs. -/
def transfers_file_after (date time : String) (existing : Option (List Record))
    (rows : List DraftRow) : Option (List Record) :=
  match save_transfers date time existing rows with
  | .nothing_saved _ => existing
  | .saved log => some log

/-- The Submit Transfers handler (lines 179-183): save the draft rows, then
reset the draft list to a single fresh blank row. -/
def submit_handler (locs : List String) (date time : String)
    (existing : Option (List Record)) (rows : List DraftRow) :
    SaveOutcome × List DraftRow :=
  (save_transfers date time existing rows, add_row locs [] none none)

/-- The validity filter of `save_transfers` as a Boolean predicate, used to
state which rows are persisted. -/
def row_valid (row : DraftRow) : Bool :=
  decide (row.item_selected ≠ "") && decide (0 < row.quantity)

theorem build_records_foldl (date time : String) :
    ∀ (rows : List DraftRow) (acc : List Record),
      rows.foldl
        (fun records row =>
          if row.item_selected ≠ "" ∧ 0 < row.quantity then
            records ++ [make_record date time row]
          else records)
        acc
      = acc ++ (rows.filter row_valid).map (make_record date time)
  | [], acc => by simp
  | row :: rows, acc => by
    by_cases h : row.item_selected ≠ "" ∧ 0 < row.quantity
    · have hv : row_valid row = true := by
        simp [row_valid, h.1, h.2]
      simp only [List.foldl_cons, if_pos h, List.filter_cons, hv, if_pos,
        List.map_cons]
      rw [build_records_foldl date time rows]
      simp
    · have hv : row_valid row = false := by
        simp only [row_valid, Bool.and_eq_false_iff, decide_eq_false_iff_not]
        by_cases h1 : row.item_selected = ""
        · exact Or.inl (by simpa using h1)
        · right
          intro hq
          exact h ⟨h1, hq⟩
      simp only [List.foldl_cons, if_neg h, List.filter_cons, hv]
      exact build_records_foldl date time rows acc

theorem build_records_eq (date time : String) (rows : List DraftRow) :
    build_records date time rows
      = (rows.filter row_valid).map (make_record date time) := by
  have h := build_records_foldl date time rows []
  simpa [build_records] using h

/-- C1: a draft row passed to `save_transfers` contributes a persisted
record if and only if its part selection is non-empty and its quantity is
strictly positive: the records written are exactly the valid rows' records,
so a row with quantity 0 or an empty selection is never written. -/
theorem persisted_iff_valid (date time : String) (rows : List DraftRow) :
    build_records date time rows
      = (rows.filter
          (fun row => decide (row.item_selected ≠ "") && decide (0 < row.quantity))).map
          (make_record date time)
    ∧ ∀ row : DraftRow, row_valid row = true
        ↔ (row.item_selected ≠ "" ∧ 0 < row.quantity) := by
  constructor
  · exact build_records_eq date time rows
  · intro row
    simp [row_valid]

/-- C2: saving over an existing log of M records leaves those M records
unchanged and first, followed by exactly the records of the rows that pass
the validity filter (N of them, one per valid row). -/
theorem save_transfers_appends (date time : String) (old : List Record)
    (rows : List DraftRow) :
    transfers_file_after date time (some old) rows
      = some (old ++ build_records date time rows)
    ∧ (build_records date time rows).length = (rows.filter row_valid).length := by
  refine ⟨?_, ?_⟩
  · by_cases hrows : rows = []
    · subst hrows
      simp [transfers_file_after, save_transfers, build_records]
    · by_cases hrec : build_records date time rows = []
      · simp [transfers_file_after, save_transfers, hrows, hrec]
      · simp [transfers_file_after, save_transfers, hrows, hrec]
  · rw [build_records_eq]
    simp

theorem splitFirst_sound (sp : List Char) :
    ∀ (s a b : List Char), splitFirst sp s = some (a, b) → s = a ++ sp ++ b
  | [], a, b, h => by simp [splitFirst] at h
  | c :: cs, a, b, h => by
    by_cases hp : sp.isPrefixOf (c :: cs)
    · rw [splitFirst, if_pos hp] at h
      obtain ⟨t, ht⟩ := List.isPrefixOf_iff_prefix.mp hp
      obtain ⟨rfl, rfl⟩ := Prod.mk.injEq .. ▸ Option.some.injEq .. ▸ h
      rw [← ht, List.drop_left]
      simp
    · rw [splitFirst, if_neg hp] at h
      cases heq : splitFirst sp cs with
      | none => rw [heq] at h; cases h
      | some p =>
        obtain ⟨a0, b0⟩ := p
        rw [heq] at h
        obtain ⟨rfl, rfl⟩ := Prod.mk.injEq .. ▸ Option.some.injEq .. ▸ h
        have := splitFirst_sound sp cs a0 b0 heq
        simp [this]

theorem splitFirst_min (sp : List Char) :
    ∀ (s a b : List Char), splitFirst sp s = some (a, b) →
      ∀ a' b' : List Char, s = a' ++ sp ++ b' → a.length ≤ a'.length
  | [], a, b, h => by simp [splitFirst] at h
  | c :: cs, a, b, h => by
    intro a' b' hdecomp
    by_cases hp : sp.isPrefixOf (c :: cs)
    · rw [splitFirst, if_pos hp] at h
      obtain ⟨rfl, rfl⟩ := Prod.mk.injEq .. ▸ Option.some.injEq .. ▸ h
      simp
    · rw [splitFirst, if_neg hp] at h
      cases a' with
      | nil =>
        exfalso
        apply hp
        rw [List.isPrefixOf_iff_prefix]
        exact ⟨b', by simpa using hdecomp.symm⟩
      | cons c' a0' =>
        cases heq : splitFirst sp cs with
        | none => rw [heq] at h; cases h
        | some p =>
          obtain ⟨a0, b0⟩ := p
          rw [heq] at h
          obtain ⟨rfl, rfl⟩ := Prod.mk.injEq .. ▸ Option.some.injEq .. ▸ h
          have hcs : cs = a0' ++ sp ++ b' := by
            have := hdecomp
            simp only [List.cons_append] at this
            exact (List.cons.injEq .. ▸ this).2
          have := splitFirst_min sp cs a0 b0 heq a0' b' hcs
          simpa using this

theorem splitFirst_ne_none (sp : List Char) (hsp : sp ≠ []) :
    ∀ (a b : List Char), splitFirst sp (a ++ (sp ++ b)) ≠ none
  | [], b => by
    obtain ⟨c, cs, hc⟩ := List.exists_cons_of_ne_nil hsp
    have hpre : (c :: cs).isPrefixOf (c :: (cs ++ b)) = true :=
      List.isPrefixOf_iff_prefix.mpr ⟨b, by simp⟩
    rw [List.nil_append, hc, List.cons_append, splitFirst, if_pos hpre]
    simp
  | c :: a0, b => by
    rw [List.cons_append, splitFirst]
    split
    · simp
    · have ih := splitFirst_ne_none sp hsp a0 b
      rcases hsplit : splitFirst sp (a0 ++ (sp ++ b)) with _ | q
      · exact absurd hsplit ih
      · simp

/-- C3: the save operation splits a combined label into code and name at
the first occurrence of `" - "`: `"ABC123 - Widget"` yields code
`"ABC123"` and description `"Widget"`; whenever the split succeeds the
label is `code ++ " - " ++ name` with `code` the shortest such prefix;
and a label in which the separator does not occur, such as `"ABC123"`,
yields the whole label as code and an empty description. -/
theorem split_item_spec :
    split_item "ABC123 - Widget" = ("ABC123", "Widget")
    ∧ split_item "ABC123" = ("ABC123", "")
    ∧ (∀ s a b : List Char, splitFirst sep s = some (a, b) →
        s = a ++ sep ++ b
        ∧ ∀ a' b' : List Char, s = a' ++ sep ++ b' → a.length ≤ a'.length)
    ∧ (∀ s : String, splitFirst sep s.toList = none →
        split_item s = (s, "")
        ∧ ¬∃ a b : List Char, s.toList = a ++ sep ++ b) := by
  refine ⟨by decide, by decide, ?_, ?_⟩
  · intro s a b h
    exact ⟨splitFirst_sound sep s a b h, splitFirst_min sep s a b h⟩
  · intro s h
    have h' : splitFirst sep s.data = none := h
    refine ⟨by simp [split_item, h'], ?_⟩
    rintro ⟨a, b, hab⟩
    apply splitFirst_ne_none sep (by decide) a b
    rw [← List.append_assoc, ← hab]
    exact h

theorem split_item_spec_witness :
    "X - Y".toList = "X".toList ++ sep ++ "Y".toList
    ∧ split_item "Q" = ("Q", "") :=
  ⟨(split_item_spec.2.2.1 "X - Y".toList "X".toList "Y".toList (by decide)).1,
   (split_item_spec.2.2.2 "Q" (by decide)).1⟩

/-- C4: after the submit handler runs, the draft list holds exactly one
blank row (empty part selection, quantity 0), regardless of how many rows
it held before. -/
theorem submit_resets_draft (locs : List String) (date time : String)
    (existing : Option (List Record)) (rows : List DraftRow) :
    (submit_handler locs date time existing rows).2
      = [{ item_selected := "", quantity := 0,
           from_location := locs.headI, to_location := locs.headI }] := by
  simp [submit_handler, add_row, pyOr]

theorem session_init_ne_nil (locs : List String) (rows : List DraftRow) :
    session_init locs rows ≠ [] := by
  unfold session_init
  by_cases h : rows.length = 0
  · simp [h, add_row]
  · simp only [h, if_false]
    intro hc
    exact h (by simp [hc])

theorem auto_add_ne_nil (locs : List String) (rows : List DraftRow)
    (h : rows ≠ []) : auto_add locs rows ≠ [] := by
  unfold auto_add
  split
  · simp [add_row]
  · exact h

/-- C5: in any script run that reaches the submit handler the draft list is
non-empty (session initialisation inserted a blank row, and widget edits
preserve the row count), so when no submitted row passes the validity
filter, `save_transfers` issues the warning and the log file is left
unwritten and unchanged. -/
theorem submit_no_valid_warns (locs : List String) (prev edited : List DraftRow)
    (date time : String) (existing : Option (List Record))
    (hlen : edited.length = (session_init locs prev).length)
    (hinvalid : ∀ row ∈ auto_add locs edited,
        row.item_selected = "" ∨ row.quantity = 0) :
    save_transfers date time existing (auto_add locs edited)
      = .nothing_saved true
    ∧ transfers_file_after date time existing (auto_add locs edited)
        = existing := by
  have hed : edited ≠ [] := by
    intro hc
    subst hc
    exact session_init_ne_nil locs prev (List.length_eq_zero.mp hlen.symm)
  have hne : auto_add locs edited ≠ [] := auto_add_ne_nil locs edited hed
  have hrec : build_records date time (auto_add locs edited) = [] := by
    rw [build_records_eq]
    have hfil : (auto_add locs edited).filter row_valid = [] := by
      apply List.filter_eq_nil_iff.mpr
      intro row hrow
      rcases hinvalid row hrow with h1 | h2
      · simp [row_valid, h1]
      · simp [row_valid, h2]
    simp [hfil]
  constructor
  · simp [save_transfers, hne, hrec]
  · simp [transfers_file_after, save_transfers, hne, hrec]

theorem submit_no_valid_warns_witness :
    save_transfers "d" "t" none (auto_add ["A"] [⟨"", 0, "A", "A"⟩])
      = .nothing_saved true
    ∧ transfers_file_after "d" "t" none (auto_add ["A"] [⟨"", 0, "A", "A"⟩])
        = none :=
  submit_no_valid_warns ["A"] [] [⟨"", 0, "A", "A"⟩] "d" "t" none
    (by decide) (by decide)

theorem empty_string_le (s : String) : "" ≤ s :=
  String.le_iff_toList_le.mpr List.nil_le

theorem sorted_headI_le {l : List String} (hs : l.Sorted (· ≤ ·)) {b : String}
    (hb : b ∈ l) : l.headI ≤ b := by
  cases l with
  | nil => cases hb
  | cons x xs =>
    rcases List.mem_cons.mp hb with rfl | hxs
    · simp
    · simpa using (List.pairwise_cons.mp hs).1 b hxs

/-- C6: whenever the last row of the draft list has a non-empty part
selection, the auto-add check appends one blank row whose source and
destination equal those of the previously last row.  The hypotheses record
the app invariants that the location list is sorted (it comes from
`load_locations`) and that every row's locations are drawn from it (they
are set by the location select boxes): they ensure that the Python
truthiness fallback in `add_row` cannot change the carried value. -/
theorem auto_add_carries (locs : List String) (rows : List DraftRow)
    (hsorted : locs.Sorted (· ≤ ·))
    (hsel : last_row_has_item_selected rows = true)
    (hfrom : rows.getLast!.from_location ∈ locs)
    (hto : rows.getLast!.to_location ∈ locs) :
    auto_add locs rows
      = rows ++ [{ item_selected := "", quantity := 0,
                   from_location := rows.getLast!.from_location,
                   to_location := rows.getLast!.to_location }] := by
  have key : ∀ s : String, s ∈ locs → pyOr (some s) locs.headI = s := by
    intro s hs
    by_cases hempty : s = ""
    · subst hempty
      have hh : locs.headI = "" :=
        le_antisymm (sorted_headI_le hsorted hs) (empty_string_le _)
      simp [pyOr, hh]
    · simp [pyOr, hempty]
  unfold auto_add
  rw [if_pos (by simpa using hsel)]
  unfold add_row
  rw [key _ hfrom, key _ hto]

theorem auto_add_carries_witness :
    auto_add ["A"] [⟨"X - Y", 1, "A", "A"⟩]
      = [⟨"X - Y", 1, "A", "A"⟩] ++ [⟨"", 0, "A", "A"⟩] :=
  auto_add_carries ["A"] [⟨"X - Y", 1, "A", "A"⟩]
    (by simp) (by decide) (by decide) (by decide)

/-- C7: for every input column of location cells, possibly with duplicate
and null entries, `load_locations` returns the distinct non-null values in
ascending order: the output is sorted, has no duplicates, and contains a
string exactly when the column contains it as a non-null cell. -/
theorem load_locations_spec (cells : List (Option String)) :
    (load_locations cells).Sorted (· ≤ ·)
    ∧ (load_locations cells).Nodup
    ∧ ∀ s : String, s ∈ load_locations cells ↔ some s ∈ cells := by
  refine ⟨?_, ?_, ?_⟩
  · have h : (List.mergeSort ((cells.filterMap id).dedup)
        (fun a b : String => decide (a ≤ b))).Pairwise
          (fun a b : String => decide (a ≤ b) = true) :=
      @List.sorted_mergeSort _ (fun a b : String => decide (a ≤ b))
        (fun a b c hab hbc =>
          decide_eq_true (le_trans (of_decide_eq_true hab) (of_decide_eq_true hbc)))
        (fun a b => by
          rcases le_total a b with h | h
          · simp [h]
          · simp [h])
        ((cells.filterMap id).dedup)
    exact h.imp (fun hab => of_decide_eq_true hab)
  · exact (List.mergeSort_perm ((cells.filterMap id).dedup)
      (fun a b => decide (a ≤ b))).nodup_iff.mpr (List.nodup_dedup _)
  · intro s
    simp [load_locations, List.mem_filterMap]

/-- C8: a row added to an empty draft list with no previous row gets the
first location of the (sorted) location list as both its source and its
destination; this is exactly what the first-row initialisation does. -/
theorem first_row_first_location (locs : List String) (h : locs ≠ []) :
    add_row locs [] none none
      = [{ item_selected := "", quantity := 0,
           from_location := locs.head h, to_location := locs.head h }]
    ∧ session_init locs [] = add_row locs [] none none := by
  obtain ⟨x, xs, rfl⟩ := List.exists_cons_of_ne_nil h
  constructor
  · simp [add_row, pyOr]
  · simp [session_init]

theorem first_row_first_location_witness :
    add_row ["A"] [] none none = [⟨"", 0, "A", "A"⟩]
    ∧ session_init ["A"] [] = add_row ["A"] [] none none :=
  first_row_first_location ["A"] (by decide)

/-- C10: deleting at an index that is negative or not less than the length
of the draft list leaves the list completely unchanged. -/
theorem delete_row_out_of_range (rows : List DraftRow) (idx : Int)
    (h : idx < 0 ∨ (rows.length : Int) ≤ idx) :
    delete_row rows idx = rows := by
  unfold delete_row
  rw [if_neg]
  rintro ⟨h0, hlen⟩
  rcases h with h | h
  · omega
  · omega

theorem delete_row_out_of_range_witness :
    delete_row [⟨"a", 1, "A", "B"⟩] (-1) = [⟨"a", 1, "A", "B"⟩] :=
  delete_row_out_of_range [⟨"a", 1, "A", "B"⟩] (-1) (Or.inl (by decide))

theorem fst_lt_of_mem_enumFrom {α : Type} :
    ∀ {l : List α} {n : Nat} {p : Nat × α}, p ∈ List.enumFrom n l → p.1 < n + l.length
  | [], _, _, h => by cases h
  | a :: as, n, p, h => by
    rcases List.mem_cons.mp h with rfl | htail
    · simp
    · have := fst_lt_of_mem_enumFrom htail
      simp only [List.length_cons]
      omega

theorem map_snd_filter_notMem_enumFrom {α : Type} (idxs : List Nat) :
    ∀ (n : Nat) (l : List α), (∀ j ∈ idxs, j < n) →
      ((List.enumFrom n l).filter (fun p => decide (p.1 ∉ idxs))).map Prod.snd = l
  | _, [], _ => by simp
  | n, a :: as, h => by
    have hn : n ∉ idxs := fun hmem => lt_irrefl n (h n hmem)
    simp only [List.enumFrom_cons, List.filter_cons]
    rw [if_pos (by simpa using hn)]
    simp only [List.map_cons]
    rw [map_snd_filter_notMem_enumFrom idxs (n + 1) as
      (fun j hj => Nat.lt_succ_of_lt (h j hj))]

theorem filter_notMem_eraseIdx {α : Type} (idxs : List Nat) (i : Nat)
    (l : List α) (hi : i < l.length) (hidxs : ∀ j ∈ idxs, j < i) :
    ((List.enum (l.eraseIdx i)).filter (fun p => decide (p.1 ∉ idxs))).map Prod.snd
      = ((List.enum l).filter (fun p => decide (p.1 ∉ i :: idxs))).map Prod.snd := by
  have hlenA : (l.take i).length = i := by
    rw [List.length_take]
    omega
  have hL : l.eraseIdx i = l.take i ++ l.drop (i + 1) :=
    List.eraseIdx_eq_take_drop_succ l i
  have hR : l = l.take i ++ l[i] :: l.drop (i + 1) := by
    conv_lhs => rw [← List.take_append_drop i l]
    rw [List.drop_eq_getElem_cons hi]
  have hsmall : ∀ p : Nat × α, p ∈ List.enum (l.take i) →
      decide (p.1 ∉ idxs) = decide (p.1 ∉ i :: idxs) := by
    intro p hp
    have hplt : p.1 < i := by
      have := fst_lt_of_mem_enumFrom hp
      omega
    rw [decide_eq_decide]
    simp only [List.mem_cons]
    constructor
    · intro hnot hmem
      rcases hmem with rfl | hmem
      · exact lt_irrefl p.1 hplt
      · exact hnot hmem
    · intro hnot hmem
      exact hnot (Or.inr hmem)
  rw [hL, List.enum_append, List.filter_append, List.map_append,
    map_snd_filter_notMem_enumFrom idxs (l.take i).length (l.drop (i + 1))
      (fun j hj => by have := hidxs j hj; omega)]
  conv_rhs => rw [hR]
  rw [List.enum_append, List.filter_append, List.map_append]
  have hx : (List.enumFrom (l.take i).length (l[i] :: l.drop (i + 1))).filter
      (fun p => decide (p.1 ∉ i :: idxs))
      = (List.enumFrom (i + 1) (l.drop (i + 1))).filter
          (fun p => decide (p.1 ∉ i :: idxs)) := by
    rw [List.enumFrom_cons, List.filter_cons, hlenA]
    rw [if_neg (by simp)]
  rw [hx, map_snd_filter_notMem_enumFrom (i :: idxs) (i + 1) (l.drop (i + 1))
    (fun j hj => by
      rcases List.mem_cons.mp hj with rfl | hmem
      · omega
      · have := hidxs j hmem; omega)]
  rw [List.filter_congr hsmall]

theorem foldl_delete_desc :
    ∀ (idxs : List Nat) (rows : List DraftRow),
      idxs.Pairwise (fun a b => b < a) → (∀ i ∈ idxs, i < rows.length) →
      idxs.foldl (fun rs i => delete_row rs (Int.ofNat i)) rows
        = ((List.enum rows).filter (fun p => decide (p.1 ∉ idxs))).map Prod.snd
  | [], rows, _, _ => by
    simp [List.enum, List.enumFrom_map_snd]
  | i :: rest, rows, hp, hb => by
    have hi : i < rows.length := hb i (List.mem_cons_self i rest)
    have hrest : ∀ j ∈ rest, j < i := fun j hj => (List.pairwise_cons.mp hp).1 j hj
    have hdel : delete_row rows (Int.ofNat i) = rows.eraseIdx i := by
      unfold delete_row
      rw [if_pos ⟨by simp only [Int.ofNat_eq_coe]; omega,
        by simp only [Int.ofNat_eq_coe]; omega⟩]
      simp
    have hlen : (rows.eraseIdx i).length = rows.length - 1 :=
      List.length_eraseIdx_of_lt hi
    rw [List.foldl_cons, hdel,
      foldl_delete_desc rest (rows.eraseIdx i) (List.pairwise_cons.mp hp).2
        (fun j hj => by have := hrest j hj; omega)]
    exact filter_notMem_eraseIdx rest i rows hi hrest

/-- C9: processing any set of deletion indices that are distinct and valid
in the original draft list, in descending order as the deletion loop does,
removes exactly the rows that were at those positions, leaving all other
rows in their original relative order: the result is the sublist of rows
whose original index is not among the requested ones. -/
theorem handle_deletions_spec (rows : List DraftRow) (idxs : List Nat)
    (hnodup : idxs.Nodup) (hvalid : ∀ i ∈ idxs, i < rows.length) :
    handle_deletions rows idxs
      = ((List.enum rows).filter (fun p => decide (p.1 ∉ idxs))).map Prod.snd := by
  unfold handle_deletions
  have hperm := List.mergeSort_perm idxs (fun a b => decide (b ≤ a))
  have hsorted : (List.mergeSort idxs (fun a b => decide (b ≤ a))).Pairwise
      (fun a b : Nat => decide (b ≤ a) = true) :=
    @List.sorted_mergeSort _ (fun a b : Nat => decide (b ≤ a))
      (fun a b c hab hbc =>
        decide_eq_true (le_trans (of_decide_eq_true hbc) (of_decide_eq_true hab)))
      (fun a b => by
        rcases le_total b a with h | h
        · simp [h]
        · simp [h])
      idxs
  have hnd : (List.mergeSort idxs (fun a b => decide (b ≤ a))).Nodup :=
    hperm.nodup_iff.mpr hnodup
  have hdesc : (List.mergeSort idxs (fun a b => decide (b ≤ a))).Pairwise
      (fun a b => b < a) :=
    (hsorted.and hnd).imp
      (fun h => lt_of_le_of_ne (of_decide_eq_true h.1) (Ne.symm h.2))
  have hb : ∀ i ∈ List.mergeSort idxs (fun a b => decide (b ≤ a)),
      i < rows.length := fun i hi => hvalid i (hperm.mem_iff.mp hi)
  rw [foldl_delete_desc _ rows hdesc hb]
  congr 1
  apply List.filter_congr
  intro p hp
  rw [decide_eq_decide]
  have hm : p.1 ∈ List.mergeSort idxs (fun a b => decide (b ≤ a)) ↔ p.1 ∈ idxs :=
    hperm.mem_iff
  exact not_congr hm

theorem handle_deletions_spec_witness :
    handle_deletions
      [⟨"a", 1, "A", "B"⟩, ⟨"b", 2, "A", "B"⟩, ⟨"c", 3, "A", "B"⟩] [2, 0]
      = [⟨"b", 2, "A", "B"⟩] :=
  (handle_deletions_spec
      [⟨"a", 1, "A", "B"⟩, ⟨"b", 2, "A", "B"⟩, ⟨"c", 3, "A", "B"⟩] [2, 0]
      (by decide) (by decide)).trans (by decide)

end TransferTracker
